import Mathlib

/-!
# Verification of the korch metric-history accumulator and training orchestration

Shallow embedding of the `History` (dict-of-lists metric accumulator) and the
`Module.fit` / `Module.evaluate` orchestration loops of the korch notebook core.

Modelling conventions:
* Python `dict`s with string keys are modelled as association lists kept in
  insertion order; all dictionaries produced by the code have unique keys
  (Python guarantees this), so entry update means "update the first matching
  entry, else append at the end", exactly Python's `d[k] = v` / `d[k].append(v)`.
* Metric scalars are modelled as rationals (`ℚ`).
* Python runtime errors raised by the code are modelled with `Except PyError`:
  `ZeroDivisionError` from `sum(x)/len(x)` on an empty list, `AttributeError`
  from `self.metrics.reset()` when `compile` stored `metrics = None`,
  `KeyError` from `results[name]` on a missing key in `evaluate`, and
  `UnboundLocalError` from reading `results` in `evaluate` when the loop over
  the dataloader never ran.
* The tensor-level collaborators (forward pass, loss, optimizer, torchmetrics)
  are external to this core: the per-batch step callbacks are parameters
  `ts` / `vs` returning the per-batch metric dictionary (`StepResult`), and the
  torchmetrics collection stored by `compile` is a parameter `metrics :
  Option Unit` whose only observable use inside `fit` is `self.metrics.reset()`.
-/

namespace Korch

/-- A per-batch metric dictionary (`StepResult`): metric name to scalar.
Models the Python dict returned by `train_step` / `validation_step`
(unique keys, insertion order). -/
abbrev StepResult := List (String × ℚ)

/-- An aggregated result: metric name to one scalar. -/
abbrev AggResult := List (String × ℚ)

/-- The `History` object: a dict from metric name to the list of logged
samples, in insertion order (the source class inherits from `dict`). -/
abbrev History := List (String × List ℚ)

/-- Python runtime errors that the embedded code can raise. -/
inductive PyError where
  | attributeError
  | zeroDivisionError
  | keyError
  | unboundLocalError
deriving DecidableEq, Repr

deriving instance DecidableEq for Except

/-- `Except.ok` is a left unit for bind. -/
@[simp] theorem exceptOkBind {ε α β : Type} (a : α) (f : α → Except ε β) :
    (Except.ok a >>= f) = f a := rfl

/-- Binding an `Except.error` propagates the error. -/
@[simp] theorem exceptErrorBind {ε α β : Type} (e : ε) (f : α → Except ε β) :
    ((Except.error e : Except ε α) >>= f) = Except.error e := rfl

/-- The default aggregation function of `History.aggregate`:
`lambda x: sum(x)/len(x)`.  On an empty list Python raises
`ZeroDivisionError`; otherwise it returns the arithmetic mean. -/
def defaultAgg (xs : List ℚ) : Except PyError ℚ :=
  if xs.length = 0 then .error .zeroDivisionError
  else .ok (xs.sum / (xs.length : ℚ))

/-- One entry of `History.log_dict`: Python's
`if name in self.keys(): self[name].append(value) else: self[name] = [value]`.
On an assoc list with unique keys this is: append `value` to the first entry
whose key matches, or append a new singleton entry at the end. -/
def logEntry : History → String → ℚ → History
  | [], key, value => [(key, [value])]
  | (n, s) :: t, key, value =>
      if n = key then (n, s ++ [value]) :: t
      else (n, s) :: logEntry t key value

/-- `History.log_dict(self, data, prefix="")`: for each `(name, value)` of
`data` in order, log `value` under key `pfx ++ name`. -/
def History.log_dict (h : History) (data : StepResult) (pfx : String) : History :=
  data.foldl (fun acc nv => logEntry acc (pfx ++ nv.1) nv.2) h

/-- `History.aggregate(self, agg_fn=lambda x: sum(x)/len(x))`: the dict
comprehension `{name: agg_fn(values) for name, values in self.items()}`,
evaluated left to right; the first error raised by `agg_fn` propagates. -/
def History.aggregate : History → (List ℚ → Except PyError ℚ) → Except PyError AggResult
  | [], _ => .ok []
  | (n, s) :: t, agg_fn => do
      let v ← agg_fn s
      let rest ← History.aggregate t agg_fn
      return (n, v) :: rest

/-- `d[k] = v` on a Python dict: overwrite the first entry with key `k`, or
append `(k, v)` at the end if `k` is absent. -/
def dictSet : List (String × ℚ) → String → ℚ → List (String × ℚ)
  | [], k, v => [(k, v)]
  | (n, w) :: t, k, v => if n = k then (n, v) :: t else (n, w) :: dictSet t k v

/-- The metric-dictionary assembly shared by `train_step` and
`validation_step`: if `self.metrics` is set, take its output dictionary and
set `metrics['Loss'] = loss.item()`; if `self.metrics is None`, return
`{'Loss': loss.item()}`.  `metricsOut` is the (external) output of
`self.metrics(outputs, labels)` when present. -/
def stepMetricsDict (metricsOut : Option (List (String × ℚ))) (loss : ℚ) : StepResult :=
  match metricsOut with
  | some ms => dictSet ms "Loss" loss
  | none => [("Loss", loss)]

/-- The per-epoch batch-level history built by `Module.fit`: a fresh
`History()`, then every training batch's `train_step` result logged with no
prefix, then (when a validation loader was supplied) every validation batch's
`validation_step` result logged with prefix `"Val_"`. -/
def batchHistory {TB VB : Type} (ts : TB → StepResult) (vs : VB → StepResult)
    (trainloader : List TB) (validationloader : Option (List VB)) : History :=
  let hb := trainloader.foldl (fun hb b => History.log_dict hb (ts b) "") ([] : History)
  match validationloader with
  | none => hb
  | some vl => vl.foldl (fun hb b => History.log_dict hb (vs b) "Val_") hb

/-- The body of one iteration of `fit`'s epoch loop, after the batch loops:
`self.metrics.reset()` (an `AttributeError` when `compile` stored
`metrics = None`), then
`history_epoch.log_dict(history_batch.aggregate())`. -/
def epochBody {TB VB : Type} (ts : TB → StepResult) (vs : VB → StepResult)
    (trainloader : List TB) (validationloader : Option (List VB))
    (metrics : Option Unit) (he : History) : Except PyError History :=
  match metrics with
  | none => .error .attributeError
  | some _ => do
      let agg ← (batchHistory ts vs trainloader validationloader).aggregate defaultAgg
      return he.log_dict agg ""

/-- `for epoch in range(epochs)`: run `epochBody` `epochs` times, threading
the epoch-level history; the body does not depend on the epoch index. -/
def fitLoop {TB VB : Type} (ts : TB → StepResult) (vs : VB → StepResult)
    (trainloader : List TB) (validationloader : Option (List VB))
    (metrics : Option Unit) : Nat → History → Except PyError History
  | 0, he => .ok he
  | n + 1, he => do
      let he' ← epochBody ts vs trainloader validationloader metrics he
      fitLoop ts vs trainloader validationloader metrics n he'

/-- `Module.fit(self, trainloader, epochs, validationloader=None)`:
`history_epoch = History()`, then the epoch loop, then return
`history_epoch`.  `ts` / `vs` are the step callbacks (external tensor work
abstracted away), and `metrics` is the torchmetrics collection stored by
`compile` (`some ()` when a metrics object is configured, `none` when
`compile` stored `metrics = None`). -/
def Module.fit {TB VB : Type} (ts : TB → StepResult) (vs : VB → StepResult)
    (trainloader : List TB) (epochs : Nat)
    (validationloader : Option (List VB)) (metrics : Option Unit) :
    Except PyError History :=
  fitLoop ts vs trainloader validationloader metrics epochs []

/-- The per-entry accumulation of `Module.evaluate` for a non-first batch:
`for name, value in result.items(): results[name].append(value)`.
`results[name]` raises `KeyError` when `name` is not a key of `results`;
otherwise the value is appended to that entry's list. -/
def evalInsertAll (results : List (String × List ℚ)) (result : StepResult) :
    Except PyError (List (String × List ℚ)) :=
  result.foldlM (fun acc nv =>
    if acc.any (fun p => p.1 = nv.1) then .ok (logEntry acc nv.1 nv.2)
    else .error .keyError) results

/-- `Module.evaluate(self, dataloader)`: iterate the dataloader; on the first
batch set `results = {name: [value] for name, value in
self.validation_step(batch).items()}`, on later batches append each entry's
value via `results[name].append(value)`; after the loop return
`{name: sum(values)/len(values) for name, values in results.items()}`.
When the dataloader is empty the loop never runs and reading `results`
raises `UnboundLocalError`.  (Every list of `results` is created as a
singleton and only grows, so the final division is never by zero.) -/
def Module.evaluate {VB : Type} (vs : VB → StepResult) (dataloader : List VB) :
    Except PyError AggResult :=
  match dataloader with
  | [] => .error .unboundLocalError
  | b0 :: rest => do
      let init := (vs b0).map (fun p => (p.1, [p.2]))
      let results ← rest.foldlM (fun acc b => evalInsertAll acc (vs b)) init
      return results.map (fun p => (p.1, p.2.sum / (p.2.length : ℚ)))

/-- Reference computation for the refinement claim about `evaluate`, built
from the spec's words: accumulate each `validation_step` `StepResult` into an
ephemeral per-call history with no prefix, then return the mean-aggregated
result. -/
def evaluateRef {VB : Type} (vs : VB → StepResult) (dataloader : List VB) :
    Except PyError AggResult :=
  History.aggregate
    (dataloader.foldl (fun h b => History.log_dict h (vs b) "") ([] : History)) defaultAgg

/-! ## Observation vocabulary for histories -/

/-- The keys of a string-keyed dictionary, in insertion order. -/
def keys {α : Type} (h : List (String × α)) : List String :=
  h.map Prod.fst

/-- The series stored under key `k` (the empty list when `k` is absent). -/
def seriesOf : History → String → List ℚ
  | [], _ => []
  | (n, s) :: t, k => if n = k then s else seriesOf t k

/-- Apply a sequence of `log_dict` calls (each a data dictionary together
with its prefix argument), left to right. -/
def applyLog : History → List (StepResult × String) → History
  | h, [] => h
  | h, c :: rest => applyLog (History.log_dict h c.1 c.2) rest

/-- How many logged entries of a call sequence target key `k`, i.e. have
`prefix ++ name = k`. -/
def countKey (calls : List (StepResult × String)) (k : String) : Nat :=
  (calls.map (fun c => (c.1.filter (fun nv => c.2 ++ nv.1 = k)).length)).sum

/-! ## Lemmas about `logEntry` and `log_dict` -/

theorem seriesOf_logEntry (h : History) (key : String) (v : ℚ) (k : String) :
    seriesOf (logEntry h key v) k =
      if key = k then seriesOf h k ++ [v] else seriesOf h k := by
  induction h with
  | nil =>
      by_cases hk : key = k <;> simp [logEntry, seriesOf, hk]
  | cons p t ih =>
      obtain ⟨n, s⟩ := p
      by_cases hn : n = key
      · subst hn
        by_cases hk : n = k
        · subst hk
          simp [logEntry, seriesOf]
        · simp [logEntry, seriesOf, hk]
      · by_cases hk : n = k
        · subst hk
          have hkey : key ≠ n := fun hh => hn hh.symm
          simp [logEntry, seriesOf, hn, hkey]
        · simp [logEntry, seriesOf, hn, hk, ih]

theorem keys_logEntry (h : History) (key : String) (v : ℚ) :
    keys (logEntry h key v) =
      if key ∈ keys h then keys h else keys h ++ [key] := by
  induction h with
  | nil => simp [logEntry, keys]
  | cons p t ih =>
      obtain ⟨n, s⟩ := p
      by_cases hn : n = key
      · subst hn
        simp [logEntry, keys]
      · have hkey : key ≠ n := fun hh => hn hh.symm
        simp only [logEntry, hn, if_false, keys, List.map_cons] at ih ⊢
        rw [ih]
        by_cases hmem : key ∈ List.map Prod.fst t
        · simp [List.mem_cons, hkey, hmem]
        · simp [List.mem_cons, hkey, hmem]

theorem mem_keys_logEntry_self (h : History) (key : String) (v : ℚ) :
    key ∈ keys (logEntry h key v) := by
  rw [keys_logEntry]
  by_cases hmem : key ∈ keys h <;> simp [hmem]

theorem mem_keys_logEntry_of_mem (h : History) (key : String) (v : ℚ)
    (a : String) (ha : a ∈ keys h) : a ∈ keys (logEntry h key v) := by
  rw [keys_logEntry]
  by_cases hmem : key ∈ keys h <;> simp [hmem, ha]

theorem logEntry_of_not_mem (h : History) (key : String) (v : ℚ)
    (hmem : key ∉ keys h) : logEntry h key v = h ++ [(key, [v])] := by
  induction h with
  | nil => simp [logEntry]
  | cons p t ih =>
      obtain ⟨n, s⟩ := p
      simp only [keys, List.map_cons, List.mem_cons, not_or] at hmem
      have hn : n ≠ key := fun hh => hmem.1 hh.symm
      simp [logEntry, hn, ih hmem.2]

theorem log_dict_nil (h : History) (pfx : String) :
    History.log_dict h [] pfx = h := rfl

theorem log_dict_cons (h : History) (nv : String × ℚ) (d : StepResult)
    (pfx : String) :
    History.log_dict h (nv :: d) pfx =
      History.log_dict (logEntry h (pfx ++ nv.1) nv.2) d pfx := rfl

theorem seriesOf_log_dict (d : StepResult) (h : History) (pfx : String)
    (k : String) :
    seriesOf (History.log_dict h d pfx) k =
      seriesOf h k ++ ((d.filter (fun nv => pfx ++ nv.1 = k)).map Prod.snd) := by
  induction d generalizing h with
  | nil => simp [log_dict_nil]
  | cons nv d ih =>
      rw [log_dict_cons, ih, seriesOf_logEntry]
      by_cases hk : pfx ++ nv.1 = k
      · simp [List.filter_cons, hk]
      · simp [List.filter_cons, hk]

theorem length_seriesOf_log_dict (d : StepResult) (h : History) (pfx : String)
    (k : String) :
    (seriesOf (History.log_dict h d pfx) k).length =
      (seriesOf h k).length + (d.filter (fun nv => pfx ++ nv.1 = k)).length := by
  simp [seriesOf_log_dict]

theorem length_seriesOf_applyLog (calls : List (StepResult × String))
    (h : History) (k : String) :
    (seriesOf (applyLog h calls) k).length =
      (seriesOf h k).length + countKey calls k := by
  induction calls generalizing h with
  | nil => simp [applyLog, countKey]
  | cons c rest ih =>
      rw [applyLog, ih, length_seriesOf_log_dict]
      simp [countKey]
      omega

theorem mem_keys_log_dict_of_mem (d : StepResult) (h : History) (pfx : String)
    (a : String) (ha : a ∈ keys h) :
    a ∈ keys (History.log_dict h d pfx) := by
  induction d generalizing h with
  | nil => simpa [log_dict_nil] using ha
  | cons nv d ih =>
      rw [log_dict_cons]
      exact ih _ (mem_keys_logEntry_of_mem _ _ _ _ ha)

theorem mem_keys_log_dict_intro (d : StepResult) (h : History) (pfx : String)
    (nv : String × ℚ) (hnv : nv ∈ d) :
    pfx ++ nv.1 ∈ keys (History.log_dict h d pfx) := by
  induction d generalizing h with
  | nil => cases hnv
  | cons c d ih =>
      rw [log_dict_cons]
      rcases List.mem_cons.mp hnv with h1 | h1
      · subst h1
        exact mem_keys_log_dict_of_mem _ _ _ _ (mem_keys_logEntry_self _ _ _)
      · exact ih _ h1

theorem keys_nodup_log_dict (d : StepResult) (h : History) (pfx : String)
    (hnd : (keys h).Nodup) : (keys (History.log_dict h d pfx)).Nodup := by
  induction d generalizing h with
  | nil => simpa [log_dict_nil] using hnd
  | cons nv d ih =>
      rw [log_dict_cons]
      refine ih _ ?_
      rw [keys_logEntry]
      by_cases hmem : pfx ++ nv.1 ∈ keys h
      · simpa [hmem] using hnd
      · simp only [hmem, if_false]
        exact hnd.append (List.nodup_singleton _)
          (fun a ha hb => hmem ((List.mem_singleton.mp hb) ▸ ha))

/-! ## Non-empty series and aggregation -/

/-- Every series of the history holds at least one sample. -/
def nonemptySeries (h : History) : Prop :=
  ∀ p ∈ h, p.2 ≠ ([] : List ℚ)

theorem nonemptySeries_logEntry (h : History) (key : String) (v : ℚ)
    (hne : nonemptySeries h) : nonemptySeries (logEntry h key v) := by
  induction h with
  | nil =>
      intro p hp
      simp [logEntry] at hp
      simp [hp]
  | cons q t ih =>
      obtain ⟨n, s⟩ := q
      by_cases hn : n = key
      · intro p hp
        simp only [logEntry, hn, if_true] at hp
        rcases List.mem_cons.mp hp with h1 | h1
        · subst h1
          simp
        · exact hne p (List.mem_cons_of_mem _ h1)
      · intro p hp
        simp only [logEntry, hn, if_false] at hp
        rcases List.mem_cons.mp hp with h1 | h1
        · subst h1
          exact hne _ (List.mem_cons_self _ _)
        · exact ih (fun q hq => hne q (List.mem_cons_of_mem _ hq)) p h1

theorem nonemptySeries_log_dict (d : StepResult) (h : History) (pfx : String)
    (hne : nonemptySeries h) : nonemptySeries (History.log_dict h d pfx) := by
  induction d generalizing h with
  | nil => simpa [log_dict_nil] using hne
  | cons nv d ih =>
      rw [log_dict_cons]
      exact ih _ (nonemptySeries_logEntry _ _ _ hne)

theorem nonemptySeries_foldl_log_dict {B : Type} (f : B → StepResult)
    (pfx : String) (l : List B) (h : History) (hne : nonemptySeries h) :
    nonemptySeries (l.foldl (fun hb b => History.log_dict hb (f b) pfx) h) := by
  induction l generalizing h with
  | nil => simpa using hne
  | cons b l ih =>
      simp only [List.foldl_cons]
      exact ih _ (nonemptySeries_log_dict _ _ _ hne)

theorem nonemptySeries_batchHistory {TB VB : Type} (ts : TB → StepResult)
    (vs : VB → StepResult) (tl : List TB) (vlo : Option (List VB)) :
    nonemptySeries (batchHistory ts vs tl vlo) := by
  have hbase : nonemptySeries ([] : History) := by intro p hp; cases hp
  have htrain := nonemptySeries_foldl_log_dict ts "" tl [] hbase
  cases vlo with
  | none => simpa [batchHistory] using htrain
  | some vl =>
      simpa [batchHistory] using
        nonemptySeries_foldl_log_dict vs "Val_" vl _ htrain

theorem aggregate_default_of_nonempty (h : History) (hne : nonemptySeries h) :
    History.aggregate h defaultAgg =
      .ok (h.map (fun p => (p.1, p.2.sum / (p.2.length : ℚ)))) := by
  induction h with
  | nil => rfl
  | cons p t ih =>
      have hp : p.2 ≠ [] := hne p (List.mem_cons_self _ _)
      have hlen : p.2.length ≠ 0 := fun hh => hp (List.length_eq_zero.mp hh)
      have ht := ih (fun q hq => hne q (List.mem_cons_of_mem _ hq))
      simp [History.aggregate, defaultAgg, hlen, ht]

theorem aggregate_default_error_of_empty (h : History)
    (hem : ∃ p ∈ h, p.2 = ([] : List ℚ)) :
    History.aggregate h defaultAgg = .error .zeroDivisionError := by
  induction h with
  | nil => simp at hem
  | cons p t ih =>
      by_cases hp : p.2 = ([] : List ℚ)
      · simp [History.aggregate, defaultAgg, hp]
      · obtain ⟨q, hq, hq2⟩ := hem
        rcases List.mem_cons.mp hq with h1 | h1
        · exact absurd (h1 ▸ hq2) hp
        · have hlen : p.2.length ≠ 0 := fun hh => hp (List.length_eq_zero.mp hh)
          simp [History.aggregate, defaultAgg, hlen, ih ⟨q, h1, hq2⟩]

/-! ## Keys introduced by the batch loops -/

theorem mem_keys_foldl_log_dict_of_mem {B : Type} (f : B → StepResult)
    (pfx : String) (l : List B) (h : History) (a : String)
    (ha : a ∈ keys h) :
    a ∈ keys (l.foldl (fun hb b => History.log_dict hb (f b) pfx) h) := by
  induction l generalizing h with
  | nil => simpa using ha
  | cons b l ih =>
      simp only [List.foldl_cons]
      exact ih _ (mem_keys_log_dict_of_mem _ _ _ _ ha)

theorem mem_keys_foldl_log_dict_intro {B : Type} (f : B → StepResult)
    (pfx : String) (l : List B) (h : History) (b : B) (hb : b ∈ l)
    (nv : String × ℚ) (hnv : nv ∈ f b) :
    pfx ++ nv.1 ∈ keys (l.foldl (fun hb b => History.log_dict hb (f b) pfx) h) := by
  induction l generalizing h with
  | nil => cases hb
  | cons c l ih =>
      simp only [List.foldl_cons]
      rcases List.mem_cons.mp hb with h1 | h1
      · subst h1
        exact mem_keys_foldl_log_dict_of_mem _ _ _ _ _
          (mem_keys_log_dict_intro _ _ _ _ hnv)
      · exact ih _ h1

theorem keys_nodup_foldl_log_dict {B : Type} (f : B → StepResult)
    (pfx : String) (l : List B) (h : History) (hnd : (keys h).Nodup) :
    (keys (l.foldl (fun hb b => History.log_dict hb (f b) pfx) h)).Nodup := by
  induction l generalizing h with
  | nil => simpa using hnd
  | cons b l ih =>
      simp only [List.foldl_cons]
      exact ih _ (keys_nodup_log_dict _ _ _ hnd)

theorem keys_nodup_batchHistory {TB VB : Type} (ts : TB → StepResult)
    (vs : VB → StepResult) (tl : List TB) (vlo : Option (List VB)) :
    (keys (batchHistory ts vs tl vlo)).Nodup := by
  have hbase : (keys ([] : History)).Nodup := by simp [keys]
  have htrain := keys_nodup_foldl_log_dict ts "" tl [] hbase
  cases vlo with
  | none => simpa [batchHistory] using htrain
  | some vl =>
      simpa [batchHistory] using keys_nodup_foldl_log_dict vs "Val_" vl _ htrain

theorem length_filter_eq_one_of_nodup {α : Type} (h : List (String × α))
    (k : String) (hnd : (keys h).Nodup) (hk : k ∈ keys h) :
    (h.filter (fun p => p.1 = k)).length = 1 := by
  induction h with
  | nil => cases hk
  | cons p t ih =>
      simp only [keys, List.map_cons, List.nodup_cons] at hnd
      rcases List.mem_cons.mp hk with h1 | h1
      · have hfil : t.filter (fun p => decide (p.1 = k)) = [] := by
          refine List.filter_eq_nil_iff.mpr ?_
          intro q hq
          simp only [decide_eq_true_eq]
          intro hqk
          exact hnd.1 (by rw [← h1, ← hqk]; exact List.mem_map_of_mem Prod.fst hq)
        simp [List.filter_cons, h1.symm, hfil]
      · have hp : p.1 ≠ k := by
          intro hh
          exact hnd.1 (hh ▸ h1)
        simp [List.filter_cons, hp, ih hnd.2 h1]

theorem mem_keys_of_seriesOf_ne_nil (h : History) (k : String)
    (hne : seriesOf h k ≠ []) : k ∈ keys h := by
  induction h with
  | nil => simp [seriesOf] at hne
  | cons p t ih =>
      obtain ⟨n, s⟩ := p
      by_cases hn : n = k
      · simp [keys, hn]
      · simp only [seriesOf, hn, if_false] at hne
        exact List.mem_cons_of_mem _ (ih hne)

/-! ## The fit loop with a constant per-epoch aggregate -/

@[simp] theorem empty_append_str (s : String) : "" ++ s = s := rfl

theorem fitLoop_eq_applyLog {TB VB : Type} (ts : TB → StepResult)
    (vs : VB → StepResult) (tl : List TB) (vlo : Option (List VB))
    (A : AggResult)
    (hA : History.aggregate (batchHistory ts vs tl vlo) defaultAgg = .ok A) :
    ∀ (n : Nat) (he : History),
      fitLoop ts vs tl vlo (some ()) n he =
        .ok (applyLog he (List.replicate n (A, ""))) := by
  intro n
  induction n with
  | zero => intro he; rfl
  | succ n ih =>
      intro he
      rw [List.replicate_succ]
      show (do
        let he' ← epochBody ts vs tl vlo (some ()) he
        fitLoop ts vs tl vlo (some ()) n he') = _
      rw [show epochBody ts vs tl vlo (some ()) he
            = .ok (History.log_dict he A "") by
        simp [epochBody, hA]]
      rw [exceptOkBind, ih]
      rfl

theorem applyLog_replicate_nil :
    ∀ (n : Nat) (he : History),
      applyLog he (List.replicate n (([] : StepResult), "")) = he := by
  intro n
  induction n with
  | zero => intro he; rfl
  | succ n ih =>
      intro he
      rw [List.replicate_succ]
      show applyLog (History.log_dict he [] "") _ = he
      rw [log_dict_nil]
      exact ih he

/-! ## Equivalence of evaluate's ad-hoc accumulation with History logging -/

theorem evalInsertAll_eq_log_dict (d : StepResult)
    (acc : List (String × List ℚ)) (hmem : ∀ nv ∈ d, nv.1 ∈ keys acc) :
    evalInsertAll acc d = .ok (History.log_dict acc d "") := by
  induction d generalizing acc with
  | nil => rfl
  | cons nv d ih =>
      have h1 : nv.1 ∈ keys acc := hmem nv (List.mem_cons_self _ _)
      have hguard : (acc.any fun p => decide (p.1 = nv.1)) = true := by
        rw [List.any_eq_true]
        obtain ⟨p, hp, hp1⟩ := List.mem_map.mp h1
        exact ⟨p, hp, by simp [hp1]⟩
      rw [evalInsertAll, List.foldlM_cons]
      simp only [hguard, if_true, exceptOkBind]
      rw [show (List.foldlM (fun acc nv =>
            if acc.any (fun p => p.1 = nv.1) = true
            then Except.ok (logEntry acc nv.1 nv.2)
            else Except.error PyError.keyError) (logEntry acc nv.1 nv.2) d)
          = evalInsertAll (logEntry acc nv.1 nv.2) d from rfl]
      rw [ih _ (fun nv' hnv' =>
        mem_keys_logEntry_of_mem _ _ _ _ (hmem nv' (List.mem_cons_of_mem _ hnv')))]
      rw [log_dict_cons]
      simp only [empty_append_str]

theorem foldlM_evalInsertAll_eq {VB : Type} (vs : VB → StepResult)
    (rest : List VB) (acc : History)
    (hmem : ∀ b ∈ rest, ∀ nv ∈ vs b, nv.1 ∈ keys acc) :
    rest.foldlM (fun a b => evalInsertAll a (vs b)) acc
      = .ok (rest.foldl (fun h b => History.log_dict h (vs b) "") acc) := by
  induction rest generalizing acc with
  | nil => rfl
  | cons b rest ih =>
      rw [List.foldlM_cons,
        evalInsertAll_eq_log_dict _ _ (hmem b (List.mem_cons_self _ _)),
        exceptOkBind, List.foldl_cons]
      exact ih _ (fun b' hb' nv hnv =>
        mem_keys_log_dict_of_mem _ _ _ _
          (hmem b' (List.mem_cons_of_mem _ hb') nv hnv))

theorem log_dict_of_fresh (d : StepResult) (h : History)
    (hnd : (d.map Prod.fst).Nodup) (hfresh : ∀ nv ∈ d, nv.1 ∉ keys h) :
    History.log_dict h d "" = h ++ d.map (fun p => (p.1, [p.2])) := by
  induction d generalizing h with
  | nil => simp [log_dict_nil]
  | cons nv d ih =>
      rw [log_dict_cons]
      simp only [empty_append_str]
      rw [logEntry_of_not_mem _ _ _ (hfresh nv (List.mem_cons_self _ _))]
      simp only [List.map_cons, List.nodup_cons] at hnd
      have hfresh' : ∀ nv' ∈ d, nv'.1 ∉ keys (h ++ [(nv.1, [nv.2])]) := by
        intro nv' hnv'
        rw [keys, List.map_append]
        simp only [List.mem_append, not_or]
        refine ⟨hfresh nv' (List.mem_cons_of_mem _ hnv'), ?_⟩
        simp only [List.map_cons, List.map_nil, List.mem_singleton]
        intro hh
        exact hnd.1 (hh ▸ List.mem_map_of_mem Prod.fst hnv')
      rw [ih _ hnd.2 hfresh']
      simp

theorem batchHistory_none {TB VB : Type} (ts : TB → StepResult)
    (vs : VB → StepResult) (tl : List TB) :
    batchHistory ts vs tl (none : Option (List VB))
      = tl.foldl (fun hb b => History.log_dict hb (ts b) "") [] := rfl

theorem batchHistory_some {TB VB : Type} (ts : TB → StepResult)
    (vs : VB → StepResult) (tl : List TB) (vl : List VB) :
    batchHistory ts vs tl (some vl)
      = vl.foldl (fun hb b => History.log_dict hb (vs b) "Val_")
          (tl.foldl (fun hb b => History.log_dict hb (ts b) "") []) := rfl

/-! ## Claims -/

/-- Claim C1: every `log_dict` call stores each entry `(name, value)` under
key `prefix ++ name`, appending to an existing series or creating a new
singleton; over any sequence of `log_dict` calls starting from a fresh
history, the series under a key collects exactly the logged values targeting
that key in order, so its length is the number of such entries; and logging
`{"Loss": 1.0}` with no prefix then `{"Loss": 2.0}` with prefix `"Val_"`
yields the two independent keys `"Loss"` and `"Val_Loss"`, one sample each. -/
theorem claim_C1_log_dict_series :
    (∀ (d : StepResult) (h : History) (pfx : String) (k : String),
        seriesOf (History.log_dict h d pfx) k =
          seriesOf h k ++ ((d.filter (fun nv => pfx ++ nv.1 = k)).map Prod.snd)) ∧
    (∀ (calls : List (StepResult × String)) (k : String),
        (seriesOf (applyLog [] calls) k).length = countKey calls k) ∧
    History.log_dict (History.log_dict ([] : History) [("Loss", (1 : ℚ))] "")
        [("Loss", (2 : ℚ))] "Val_"
      = [("Loss", [(1 : ℚ)]), ("Val_Loss", [(2 : ℚ)])] := by
  refine ⟨seriesOf_log_dict, fun calls k => ?_, by decide⟩
  have h := length_seriesOf_applyLog calls [] k
  simpa [seriesOf] using h

/-- Claim C2: on a history whose series are all non-empty, `aggregate` with
the default aggregation function returns, for each key with series
`[v1..vn]`, the arithmetic mean `sum(vi)/n` (the embedding is pure, so the
history itself is untouched); in particular logging `{"Loss": 1.0}` then
`{"Loss": 3.0}` and aggregating yields `{"Loss": 2.0}`. -/
theorem claim_C2_aggregate_mean (h : History)
    (hne : ∀ p ∈ h, p.2 ≠ ([] : List ℚ)) :
    History.aggregate h defaultAgg
        = .ok (h.map (fun p => (p.1, p.2.sum / (p.2.length : ℚ)))) ∧
    History.aggregate (History.log_dict (History.log_dict ([] : History)
        [("Loss", (1 : ℚ))] "") [("Loss", (3 : ℚ))] "") defaultAgg
      = .ok [("Loss", (2 : ℚ))] := by
  refine ⟨aggregate_default_of_nonempty h hne, ?_⟩
  norm_num [History.aggregate, History.log_dict, logEntry, defaultAgg, List.foldl]

/-- Witness for C2 at the concrete history `{"Loss": [1, 3]}`. -/
theorem claim_C2_witness :
    History.aggregate [("Loss", [(1 : ℚ), 3])] defaultAgg
      = .ok ([("Loss", [(1 : ℚ), 3])].map
          (fun p => (p.1, p.2.sum / (p.2.length : ℚ)))) :=
  (claim_C2_aggregate_mean [("Loss", [(1 : ℚ), 3])] (by decide)).1

/-- Claim C3: `fit` with `epochs = 2`, a training source of three batches
whose `train_step` results are `{"Loss": 1}`, `{"Loss": 2}`, `{"Loss": 3}`
in each epoch, a configured metrics object and no validation source returns
an epoch-level history whose `"Loss"` series is `[2.0, 2.0]`. -/
theorem claim_C3_fit_two_epochs :
    Module.fit (fun x : ℚ => [("Loss", x)]) (fun _ : Unit => ([] : StepResult))
        [1, 2, 3] 2 none (some ())
      = .ok [("Loss", [(2 : ℚ), 2])] := by
  norm_num [Module.fit, fitLoop, epochBody, batchHistory, History.aggregate,
    History.log_dict, logEntry, defaultAgg, List.foldl]

/-- Counterexample to claim C4 as stated: over the non-empty batch sequence
`[0, 1]` whose step results are `{"Loss": 2.0}` and then
`{"Loss": 4.0, "Acc": 1.0}`, `evaluate` raises `KeyError` (its ad-hoc
accumulator indexes a key created only from the first batch), while the
reference History-based computation returns `{"Loss": 3.0, "Acc": 1.0}`. -/
theorem claim_C4_counterexample :
    Module.evaluate (fun b : Nat => if b = 0 then [("Loss", (2 : ℚ))]
        else [("Loss", (4 : ℚ)), ("Acc", (1 : ℚ))]) [0, 1]
      = .error .keyError ∧
    evaluateRef (fun b : Nat => if b = 0 then [("Loss", (2 : ℚ))]
        else [("Loss", (4 : ℚ)), ("Acc", (1 : ℚ))]) [0, 1]
      = .ok [("Loss", (3 : ℚ)), ("Acc", (1 : ℚ))] ∧
    Module.evaluate (fun b : Nat => if b = 0 then [("Loss", (2 : ℚ))]
        else [("Loss", (4 : ℚ)), ("Acc", (1 : ℚ))]) [0, 1]
      ≠ evaluateRef (fun b : Nat => if b = 0 then [("Loss", (2 : ℚ))]
        else [("Loss", (4 : ℚ)), ("Acc", (1 : ℚ))]) [0, 1] := by
  have h1 : Module.evaluate (fun b : Nat => if b = 0 then [("Loss", (2 : ℚ))]
      else [("Loss", (4 : ℚ)), ("Acc", (1 : ℚ))]) [0, 1] = .error .keyError := by
    norm_num [Module.evaluate, evalInsertAll, logEntry, List.foldlM]
    rw [if_neg (by decide)]
    rfl
  have h2 : evaluateRef (fun b : Nat => if b = 0 then [("Loss", (2 : ℚ))]
      else [("Loss", (4 : ℚ)), ("Acc", (1 : ℚ))]) [0, 1]
      = .ok [("Loss", (3 : ℚ)), ("Acc", (1 : ℚ))] := by
    norm_num [evaluateRef, History.aggregate, History.log_dict, logEntry,
      defaultAgg, List.foldl]
  refine ⟨h1, h2, ?_⟩
  rw [h1, h2]
  decide

/-- Claim C4, amended: for every non-empty batch sequence in which every key
of every later batch's step result already occurs among the first batch's
keys (the situation `evaluate`'s accumulator supports; step results are
Python dicts, so their keys are assumed duplicate-free), `evaluate` returns
exactly the result of logging each step result into a fresh history with no
prefix and mean-aggregating it; in particular batches yielding
`{"Loss": 2.0}` and `{"Loss": 4.0}` evaluate to `{"Loss": 3.0}`. -/
theorem claim_C4_evaluate_refines {VB : Type} (vs : VB → StepResult)
    (b0 : VB) (rest : List VB)
    (hnd : ((vs b0).map Prod.fst).Nodup)
    (hsub : ∀ b ∈ rest, ∀ nv ∈ vs b, nv.1 ∈ (vs b0).map Prod.fst) :
    Module.evaluate vs (b0 :: rest) = evaluateRef vs (b0 :: rest) ∧
    Module.evaluate (fun b : Nat => if b = 0 then [("Loss", (2 : ℚ))]
        else [("Loss", (4 : ℚ))]) [0, 1]
      = .ok [("Loss", (3 : ℚ))] := by
  constructor
  · have hfresh : ∀ nv ∈ vs b0, nv.1 ∉ keys ([] : History) := by
      simp [keys]
    have hinit : History.log_dict [] (vs b0) ""
        = (vs b0).map (fun p => (p.1, [p.2])) := by
      rw [log_dict_of_fresh _ _ hnd hfresh]
      simp
    have hkeys : keys ((vs b0).map (fun p => (p.1, [p.2])))
        = (vs b0).map Prod.fst := by
      simp [keys, List.map_map, Function.comp_def]
    have hmem : ∀ b ∈ rest, ∀ nv ∈ vs b,
        nv.1 ∈ keys ((vs b0).map (fun p => (p.1, [p.2]))) := by
      intro b hb nv hnv
      rw [hkeys]
      exact hsub b hb nv hnv
    have hfold := foldlM_evalInsertAll_eq vs rest _ hmem
    have hne : nonemptySeries
        (rest.foldl (fun h b => History.log_dict h (vs b) "")
          ((vs b0).map (fun p => (p.1, [p.2])))) := by
      refine nonemptySeries_foldl_log_dict vs "" rest _ ?_
      intro p hp
      obtain ⟨q, _, rfl⟩ := List.mem_map.mp hp
      simp
    simp only [Module.evaluate, hfold, exceptOkBind]
    rw [evaluateRef, List.foldl_cons, hinit,
      aggregate_default_of_nonempty _ hne]
    rfl
  · norm_num [Module.evaluate, evalInsertAll, logEntry, List.foldlM]

/-- Witness for the amended C4 at the two-batch input with step results
`{"Loss": 2.0}` and `{"Loss": 4.0}`. -/
theorem claim_C4_witness :
    Module.evaluate (fun b : Nat => if b = 0 then [("Loss", (2 : ℚ))]
        else [("Loss", (4 : ℚ))]) (0 :: [1])
      = evaluateRef (fun b : Nat => if b = 0 then [("Loss", (2 : ℚ))]
        else [("Loss", (4 : ℚ))]) (0 :: [1]) :=
  (claim_C4_evaluate_refines (fun b : Nat => if b = 0 then [("Loss", (2 : ℚ))]
    else [("Loss", (4 : ℚ))]) 0 [1] (by decide) (by decide)).1

/-- Claim C5: `aggregate` with the default mean on a history in which some
key's series is empty fails with the `ZeroDivisionError` raised by
`sum(x)/len(x)` at aggregation time; it never returns a result mapping. -/
theorem claim_C5_aggregate_empty_series (h : History)
    (hem : ∃ p ∈ h, p.2 = ([] : List ℚ)) :
    History.aggregate h defaultAgg = .error .zeroDivisionError ∧
    ∀ r : AggResult, History.aggregate h defaultAgg ≠ .ok r := by
  refine ⟨aggregate_default_error_of_empty h hem, fun r hr => ?_⟩
  rw [aggregate_default_error_of_empty h hem] at hr
  cases hr

/-- Witness for C5 at the concrete history `{"Loss": []}`. -/
theorem claim_C5_witness :
    History.aggregate [("Loss", ([] : List ℚ))] defaultAgg
      = .error .zeroDivisionError :=
  (claim_C5_aggregate_empty_series [("Loss", ([] : List ℚ))] (by decide)).1

/-- Counterexample to claim C6 as stated: with a configured metrics object,
`fit` over data sources yielding zero batches (training and validation both
empty) completes the epoch and returns an empty history; the batch history
has no keys at all, so the end-of-epoch `aggregate` maps over an empty
dictionary and succeeds instead of hitting the empty-series failure. -/
theorem claim_C6_counterexample :
    Module.fit (fun _ : Unit => [("Loss", (1 : ℚ))])
        (fun _ : Unit => [("Loss", (1 : ℚ))])
        ([] : List Unit) 1 (some ([] : List Unit)) (some ()) = .ok [] ∧
    Module.fit (fun _ : Unit => [("Loss", (1 : ℚ))])
        (fun _ : Unit => [("Loss", (1 : ℚ))])
        ([] : List Unit) 1 (some ([] : List Unit)) (some ())
      ≠ .error PyError.zeroDivisionError := by
  have h1 : Module.fit (fun _ : Unit => [("Loss", (1 : ℚ))])
      (fun _ : Unit => [("Loss", (1 : ℚ))])
      ([] : List Unit) 1 (some ([] : List Unit)) (some ()) = .ok [] := by
    norm_num [Module.fit, fitLoop, epochBody, batchHistory, History.aggregate,
      History.log_dict, List.foldl]
  refine ⟨h1, ?_⟩
  rw [h1]
  decide

/-- Claim C6, amended: with a configured metrics object, `fit` over a
training source yielding zero batches (with no validation source, or with a
validation source also yielding zero batches) completes every epoch without
error: the per-epoch batch history is empty, its aggregate is the empty
mapping, and the returned epoch-level history is empty. -/
theorem claim_C6_fit_zero_batches {TB VB : Type} (ts : TB → StepResult)
    (vs : VB → StepResult) (epochs : Nat) :
    Module.fit ts vs ([] : List TB) epochs (none : Option (List VB)) (some ())
        = .ok [] ∧
    Module.fit ts vs ([] : List TB) epochs (some ([] : List VB)) (some ())
        = .ok [] := by
  have h1 : History.aggregate
      (batchHistory ts vs ([] : List TB) (none : Option (List VB)))
      defaultAgg = .ok [] := rfl
  have h2 : History.aggregate
      (batchHistory ts vs ([] : List TB) (some ([] : List VB)))
      defaultAgg = .ok [] := rfl
  constructor
  · show fitLoop ts vs ([] : List TB) (none : Option (List VB)) (some ())
        epochs [] = .ok []
    rw [fitLoop_eq_applyLog ts vs _ _ [] h1 epochs, applyLog_replicate_nil]
  · show fitLoop ts vs ([] : List TB) (some ([] : List VB)) (some ())
        epochs [] = .ok []
    rw [fitLoop_eq_applyLog ts vs _ _ [] h2 epochs, applyLog_replicate_nil]

/-- Claim C7: whenever `fit` is called with a validation source and
`epochs ≥ 1` (and a configured metrics object, without which `fit` cannot
return at all), the returned epoch-level history contains, with one sample
per epoch, every un-prefixed training metric key and every `"Val_"`-prefixed
validation metric key. -/
theorem claim_C7_fit_validation_keys {TB VB : Type} (ts : TB → StepResult)
    (vs : VB → StepResult) (tl : List TB) (vl : List VB) (epochs : Nat)
    (hep : 1 ≤ epochs) :
    ∃ he, Module.fit ts vs tl epochs (some vl) (some ()) = .ok he ∧
      (∀ b ∈ tl, ∀ nv ∈ ts b,
          nv.1 ∈ keys he ∧ (seriesOf he nv.1).length = epochs) ∧
      (∀ b ∈ vl, ∀ nv ∈ vs b,
          ("Val_" ++ nv.1) ∈ keys he ∧
            (seriesOf he ("Val_" ++ nv.1)).length = epochs) := by
  have hne := nonemptySeries_batchHistory ts vs tl (some vl)
  have hagg := aggregate_default_of_nonempty _ hne
  set A := (batchHistory ts vs tl (some vl)).map
      (fun p => (p.1, p.2.sum / (p.2.length : ℚ))) with hAdef
  have hfit : Module.fit ts vs tl epochs (some vl) (some ())
      = .ok (applyLog [] (List.replicate epochs (A, ""))) := by
    show fitLoop ts vs tl (some vl) (some ()) epochs [] = _
    exact fitLoop_eq_applyLog ts vs tl (some vl) A hagg epochs []
  have hkeysA : keys A = keys (batchHistory ts vs tl (some vl)) := by
    simp [hAdef, keys, List.map_map, Function.comp_def]
  have hndA : (keys A).Nodup := by
    rw [hkeysA]
    exact keys_nodup_batchHistory ts vs tl (some vl)
  have hseries : ∀ k, k ∈ keys (batchHistory ts vs tl (some vl)) →
      k ∈ keys (applyLog [] (List.replicate epochs (A, ""))) ∧
      (seriesOf (applyLog [] (List.replicate epochs (A, ""))) k).length
        = epochs := by
    intro k hk
    have hkA : k ∈ keys A := by
      rw [hkeysA]
      exact hk
    have hfil : (A.filter (fun nv => nv.1 = k)).length = 1 :=
      length_filter_eq_one_of_nodup A k hndA hkA
    have hpred : A.filter (fun nv => ("" : String) ++ nv.1 = k)
        = A.filter (fun nv => nv.1 = k) :=
      List.filter_congr (fun nv _ => by simp)
    have hcount : countKey (List.replicate epochs (A, "")) k = epochs := by
      rw [countKey, List.map_replicate]
      simp only [hpred, hfil, List.sum_replicate, smul_eq_mul, mul_one]
    have hlen : (seriesOf (applyLog [] (List.replicate epochs (A, ""))) k).length
        = epochs := by
      rw [length_seriesOf_applyLog, hcount]
      simp [seriesOf]
    refine ⟨?_, hlen⟩
    apply mem_keys_of_seriesOf_ne_nil
    intro hnil
    rw [hnil] at hlen
    simp at hlen
    omega
  refine ⟨applyLog [] (List.replicate epochs (A, "")), hfit, ?_, ?_⟩
  · intro b hb nv hnv
    refine hseries nv.1 ?_
    have htr := mem_keys_foldl_log_dict_intro ts "" tl [] b hb nv hnv
    rw [empty_append_str] at htr
    rw [batchHistory_some]
    exact mem_keys_foldl_log_dict_of_mem vs "Val_" vl _ _ htr
  · intro b hb nv hnv
    refine hseries ("Val_" ++ nv.1) ?_
    rw [batchHistory_some]
    exact mem_keys_foldl_log_dict_intro vs "Val_" vl _ b hb nv hnv

/-- Witness for C7: one epoch, one training batch returning `{"Loss": 1}`,
one validation batch returning `{"Loss": 2}`. -/
theorem claim_C7_witness :
    ∃ he, Module.fit (fun _ : Unit => [("Loss", (1 : ℚ))])
        (fun _ : Unit => [("Loss", (2 : ℚ))]) [()] 1 (some [()]) (some ())
        = .ok he ∧
      (∀ b ∈ [()], ∀ nv ∈ [("Loss", (1 : ℚ))],
          nv.1 ∈ keys he ∧ (seriesOf he nv.1).length = 1) ∧
      (∀ b ∈ [()], ∀ nv ∈ [("Loss", (2 : ℚ))],
          ("Val_" ++ nv.1) ∈ keys he ∧
            (seriesOf he ("Val_" ++ nv.1)).length = 1) :=
  claim_C7_fit_validation_keys (fun _ : Unit => [("Loss", (1 : ℚ))])
    (fun _ : Unit => [("Loss", (2 : ℚ))]) [()] [()] 1 (by decide)

/-- Claim C8: `fit` with `epochs = 0` returns an empty epoch-level history
and raises no error, whatever the data sources and metrics configuration:
the epoch loop body never runs. -/
theorem claim_C8_fit_zero_epochs {TB VB : Type} (ts : TB → StepResult)
    (vs : VB → StepResult) (tl : List TB) (vlo : Option (List VB))
    (metrics : Option Unit) :
    Module.fit ts vs tl 0 vlo metrics = .ok [] := rfl

/-- Claim C9: after `compile` stored `metrics = None`, `fit` with
`epochs ≥ 1` raises `AttributeError` at the unconditional
`self.metrics.reset()` at the end of the first epoch, for any data sources —
even though the step functions themselves handle `metrics = None` by
returning only the `"Loss"` key — so a metrics-less configuration never
completes an epoch of `fit`. -/
theorem claim_C9_fit_metrics_none {TB VB : Type} (ts : TB → StepResult)
    (vs : VB → StepResult) (tl : List TB) (vlo : Option (List VB))
    (epochs : Nat) (hep : 1 ≤ epochs) :
    Module.fit ts vs tl epochs vlo none = .error .attributeError ∧
    ∀ loss : ℚ, stepMetricsDict none loss = [("Loss", loss)] := by
  constructor
  · obtain ⟨n, rfl⟩ : ∃ n, epochs = n + 1 := ⟨epochs - 1, by omega⟩
    rfl
  · intro loss
    rfl

/-- Witness for C9: one epoch, one training batch, no validation source. -/
theorem claim_C9_witness :
    Module.fit (fun _ : Unit => [("Loss", (1 : ℚ))])
        (fun _ : Unit => [("Loss", (2 : ℚ))]) [()] 1
        (none : Option (List Unit)) none
      = .error .attributeError :=
  (claim_C9_fit_metrics_none (fun _ : Unit => [("Loss", (1 : ℚ))])
    (fun _ : Unit => [("Loss", (2 : ℚ))]) [()] none 1 (by decide)).1

/-- Claim C10: `evaluate` on a data source yielding zero batches raises
`UnboundLocalError`: the `results` accumulator is only created inside the
first loop iteration, and the final comprehension reads it unconditionally. -/
theorem claim_C10_evaluate_empty {VB : Type} (vs : VB → StepResult) :
    Module.evaluate vs ([] : List VB) = .error .unboundLocalError := rfl

end Korch
